import Mathlib

/-!
Verification of the `shrink_pool` crate (src/src/lib.rs).

The crate is a thread pool (`ShrinkPool`) protected by a single mutex around a
`ShrinkPoolInner` record holding `num_running_threads` and a FIFO `tasks`
queue.  `execute` appends a task under the lock and, still under the lock,
increments the counter when `num_running_threads < pool_size`, then spawns a
worker after unlocking.  Each worker (`thread_spawn`) loops: under the lock it
pops the front of the queue; on `Some f` it unlocks and runs `f` guarded by a
`PanicCatcher` whose `Drop` respawns a replacement worker when the task
unwound; on `None` it decrements the counter and terminates.  `SyncThread`
wraps a `ShrinkPool` of size 1.

We embed the code shallowly: the three critical sections become pure Lean
functions on the inner state, and the whole concurrent system becomes a
labelled small-step relation `Step` over a `Config` that carries the shared
inner state, the multiset of live workers, and history logs (submission,
claim and resolution order) used to state FIFO and exactly-once properties.
-/

/-- A task, as the pool sees it: an opaque unit of work.  For the model we
keep an identifier and whether running it unwinds (the `FnOnce` body either
returns normally or panics with an unwindable panic). -/
structure PoolTask where
  id : Nat
  panics : Bool
deriving DecidableEq, Repr

/-- The state behind the mutex: `ShrinkPoolInner` from the source, with the
`VecDeque<Box<dyn FnOnce()>>` of tasks as a Lean list (front = head). -/
structure ShrinkPoolInner where
  num_running_threads : Nat
  tasks : List PoolTask
deriving DecidableEq, Repr

/-- The pool handle: `pool_size` plus the mutex-protected inner state. -/
structure ShrinkPool where
  pool_size : Nat
  inner : ShrinkPoolInner
deriving DecidableEq, Repr

/-- `ShrinkPool::new` (lib.rs lines 107-118).  The source panics when
`pool_size == 0`; we model the panic as `none` (no pool is created).
Otherwise the pool starts with `num_running_threads = 0` and an empty
queue. -/
def ShrinkPool.new (pool_size : Nat) : Option ShrinkPool :=
  if pool_size == 0 then
    none
  else
    some { pool_size := pool_size
           inner := { num_running_threads := 0, tasks := [] } }

/-- The critical section of `ShrinkPool::execute` (lib.rs lines 126-140):
under the lock, push the task to the back of the queue; if
`num_running_threads < pool_size`, increment it and report `true`
(spawn needed), else report `false`.  Returns the new inner state and the
spawn decision. -/
def executeLockSection (pool_size : Nat) (inner : ShrinkPoolInner) (f : PoolTask) :
    ShrinkPoolInner × Bool :=
  let inner1 : ShrinkPoolInner :=
    { inner with tasks := inner.tasks ++ [f] }
  if inner1.num_running_threads < pool_size then
    ({ inner1 with num_running_threads := inner1.num_running_threads + 1 }, true)
  else
    (inner1, false)

/-- The critical section of the worker loop in `thread_spawn`
(lib.rs lines 150-160): under the lock, `pop_front` the queue; on `Some f`
return the task with the shortened queue; on `None` decrement
`num_running_threads` (the worker will break out of the loop and the thread
terminates). -/
def workerLockSection (inner : ShrinkPoolInner) : Option PoolTask × ShrinkPoolInner :=
  match inner.tasks with
  | f :: rest => (some f, { inner with tasks := rest })
  | [] =>
    (none, { inner with num_running_threads := inner.num_running_threads - 1 })

/-- `PanicCatcher::drop` (lib.rs lines 179-195): the number of replacement
workers it spawns, as a function of the `is_working` flag only — the body is
`if self.is_working then thread_spawn(self.mutex.clone())`.  It reads nothing
else: in particular it does not inspect the queue or the counter. -/
def panicCatcherDropSpawns (is_working : Bool) : Nat :=
  if is_working then 1 else 0

/-- `ShrinkPool::execute` at the handle level: run the critical section,
returning the updated handle and whether a worker thread was spawned after
the lock was released (lib.rs lines 141-144). -/
def ShrinkPool.execute (p : ShrinkPool) (f : PoolTask) : ShrinkPool × Bool :=
  let r := executeLockSection p.pool_size p.inner f
  ({ p with inner := r.1 }, r.2)

/-- `SyncThread` (lib.rs lines 215-231): a wrapper holding a `ShrinkPool`. -/
structure SyncThread where
  pool : ShrinkPool
deriving DecidableEq, Repr

/-- `SyncThread::new` (lib.rs lines 221-225): constructs `ShrinkPool::new(1)`. -/
def SyncThread.new : Option SyncThread :=
  (ShrinkPool.new 1).map SyncThread.mk

/-- `SyncThread::execute` (lib.rs lines 228-230): forwards to
`self.pool.execute(f)` unchanged. -/
def SyncThread.execute (s : SyncThread) (f : PoolTask) : SyncThread × Bool :=
  let r := s.pool.execute f
  ({ pool := r.1 }, r.2)

/-- The phase of a live worker thread: `draining` (about to take the lock and
pop the queue) or `executing t` (lock released, running task `t`). -/
inductive WorkerPhase where
  | draining : WorkerPhase
  | executing : PoolTask → WorkerPhase
deriving DecidableEq, Repr

/-- The tasks currently being executed, in worker-list order. -/
def executingTasks : List WorkerPhase → List PoolTask
  | [] => []
  | WorkerPhase.draining :: ws => executingTasks ws
  | WorkerPhase.executing t :: ws => t :: executingTasks ws

/-- A configuration of the whole concurrent system: the pool size, the
mutex-protected inner state, the live workers (each a transient lease on the
shared state), and three history logs used only to state properties:
`submitted` (order of `execute` calls), `claimed` (order in which workers
popped tasks), `resolved` (order in which claimed tasks finished, paired with
`true` for a normal return and `false` for an unwind). -/
structure Config where
  pool_size : Nat
  inner : ShrinkPoolInner
  workers : List WorkerPhase
  submitted : List PoolTask
  claimed : List PoolTask
  resolved : List (PoolTask × Bool)
deriving DecidableEq, Repr

/-- The configuration right after `ShrinkPool::new`: no live workers, empty
queue, counter 0, empty history. -/
def initConfig (pool_size : Nat) : Config :=
  { pool_size := pool_size
    inner := { num_running_threads := 0, tasks := [] }
    workers := []
    submitted := []
    claimed := []
    resolved := [] }

/-- Effect of one whole `ShrinkPool::execute` call on a configuration: the
critical section runs atomically, and when it decided to spawn, exactly one
new worker enters the `draining` phase (the `thread_spawn` after unlock). -/
def executeStep (c : Config) (f : PoolTask) : Config :=
  let r := executeLockSection c.pool_size c.inner f
  { c with
    inner := r.1
    workers := c.workers ++ (if r.2 then [WorkerPhase.draining] else [])
    submitted := c.submitted ++ [f] }

/-- Step labels: an `execute` call submitting a task, or an internal step of
some worker thread. -/
inductive Label where
  | exec : PoolTask → Label
  | internal : Label
deriving DecidableEq, Repr

/-- Small-step semantics of the pool.  Each constructor is one atomic event
of the source:
* `execute`: one `ShrinkPool::execute` call (critical section + conditional
  spawn after unlock);
* `claim`: a `draining` worker's critical section pops `some t`; the worker
  releases the lock, arms a `PanicCatcher` and starts running `t`;
* `exit`: a `draining` worker's critical section pops `none`; it decrements
  `num_running_threads` under the lock and the thread terminates;
* `finish`: an `executing` worker's task returns normally; the catcher is
  disarmed (`is_working = false`, drop spawns nothing) and the same thread
  loops back to `draining`;
* `panicked`: an `executing` worker's task unwinds; the armed catcher's drop
  spawns exactly one replacement worker, which enters `draining` occupying
  the dead worker's accounted slot, the counter untouched. -/
inductive Step : Label → Config → Config → Prop where
  | execute (c : Config) (t : PoolTask) :
      Step (Label.exec t) c (executeStep c t)
  | claim (c : Config) (w1 w2 : List WorkerPhase) (t : PoolTask)
      (inner1 : ShrinkPoolInner)
      (hw : c.workers = w1 ++ WorkerPhase.draining :: w2)
      (hpop : workerLockSection c.inner = (some t, inner1)) :
      Step Label.internal c
        { c with
          inner := inner1
          workers := w1 ++ WorkerPhase.executing t :: w2
          claimed := c.claimed ++ [t] }
  | exit (c : Config) (w1 w2 : List WorkerPhase)
      (inner1 : ShrinkPoolInner)
      (hw : c.workers = w1 ++ WorkerPhase.draining :: w2)
      (hpop : workerLockSection c.inner = (none, inner1)) :
      Step Label.internal c
        { c with
          inner := inner1
          workers := w1 ++ w2 }
  | finish (c : Config) (w1 w2 : List WorkerPhase) (t : PoolTask)
      (hw : c.workers = w1 ++ WorkerPhase.executing t :: w2)
      (hok : t.panics = false) :
      Step Label.internal c
        { c with
          workers := w1 ++ WorkerPhase.draining :: w2
          resolved := c.resolved ++ [(t, true)] }
  | panicked (c : Config) (w1 w2 : List WorkerPhase) (t : PoolTask)
      (hw : c.workers = w1 ++ WorkerPhase.executing t :: w2)
      (hp : t.panics = true) :
      Step Label.internal c
        { c with
          workers := w1 ++ WorkerPhase.draining :: w2
          resolved := c.resolved ++ [(t, false)] }

/-- Configurations reachable from a freshly constructed pool of the given
size, under any interleaving of `execute` calls and worker steps. -/
inductive Reachable (pool_size : Nat) : Config → Prop where
  | init : Reachable pool_size (initConfig pool_size)
  | step {c c' : Config} {l : Label} :
      Reachable pool_size c → Step l c c' → Reachable pool_size c'

/-! ### Basic lemmas about the critical sections -/

/-- Closed form of the `execute` critical section. -/
theorem executeLockSection_eq (ps : Nat) (inner : ShrinkPoolInner) (f : PoolTask) :
    executeLockSection ps inner f =
      if inner.num_running_threads < ps then
        ({ num_running_threads := inner.num_running_threads + 1
           tasks := inner.tasks ++ [f] }, true)
      else
        ({ num_running_threads := inner.num_running_threads
           tasks := inner.tasks ++ [f] }, false) := by
  by_cases h : inner.num_running_threads < ps <;>
    simp [executeLockSection, h]

/-- Worker critical section on a non-empty queue: pops the front, leaves the
counter alone. -/
theorem workerLockSection_cons (n : Nat) (f : PoolTask) (rest : List PoolTask) :
    workerLockSection ⟨n, f :: rest⟩ = (some f, ⟨n, rest⟩) := rfl

/-- Worker critical section on an empty queue: decrements the counter. -/
theorem workerLockSection_nil (n : Nat) :
    workerLockSection ⟨n, []⟩ = (none, ⟨n - 1, []⟩) := rfl

/-- Inversion: a successful pop means the queue had the popped task at its
head and the counter was untouched. -/
theorem workerLockSection_some {inner inner1 : ShrinkPoolInner} {t : PoolTask}
    (h : workerLockSection inner = (some t, inner1)) :
    inner.tasks = t :: inner1.tasks ∧
    inner1.num_running_threads = inner.num_running_threads := by
  obtain ⟨n, ts⟩ := inner
  cases ts with
  | nil => simp [workerLockSection] at h
  | cons f rest =>
    simp only [workerLockSection, Prod.mk.injEq, Option.some.injEq] at h
    obtain ⟨h1, h2⟩ := h
    subst h1
    subst h2
    exact ⟨rfl, rfl⟩

/-- Inversion: a failed pop means the queue was empty and the counter was
decremented. -/
theorem workerLockSection_none {inner inner1 : ShrinkPoolInner}
    (h : workerLockSection inner = (none, inner1)) :
    inner.tasks = [] ∧ inner1.tasks = [] ∧
    inner1.num_running_threads = inner.num_running_threads - 1 := by
  obtain ⟨n, ts⟩ := inner
  cases ts with
  | nil =>
    simp only [workerLockSection, Prod.mk.injEq, true_and] at h
    subst h
    exact ⟨rfl, rfl, rfl⟩
  | cons f rest => simp [workerLockSection] at h

theorem executingTasks_append (a b : List WorkerPhase) :
    executingTasks (a ++ b) = executingTasks a ++ executingTasks b := by
  induction a with
  | nil => rfl
  | cons w ws ih => cases w <;> simp [executingTasks, ih]

/-! ### The pool invariant -/

/-- The invariant of the shared state, at every quiescent point (lock held by
no one — in the model, between atomic steps): the counter equals the number
of live workers, it never exceeds `pool_size`, the submission log is the
claim log followed by the pending queue (FIFO), and a non-empty queue implies
a live worker. -/
structure PoolInv (ps : Nat) (c : Config) : Prop where
  size_eq : c.pool_size = ps
  count_eq : c.inner.num_running_threads = c.workers.length
  count_le : c.workers.length ≤ ps
  fifo : c.submitted = c.claimed ++ c.inner.tasks
  live_of_pending : c.inner.tasks ≠ [] → c.workers ≠ []

theorem poolInv_init (ps : Nat) : PoolInv ps (initConfig ps) :=
  ⟨rfl, rfl, Nat.zero_le ps, rfl, fun h => absurd rfl h⟩

/-- Every atomic step of the system preserves the pool invariant. -/
theorem poolInv_step {ps : Nat} {l : Label} {c c' : Config}
    (hps : 1 ≤ ps) (h : PoolInv ps c) (hs : Step l c c') : PoolInv ps c' := by
  obtain ⟨hsize, hcount, hle, hfifo, hlive⟩ := h
  cases hs with
  | execute c t =>
    by_cases hlt : c.inner.num_running_threads < c.pool_size
    · have he : executeStep c t =
        { c with
          inner := { num_running_threads := c.inner.num_running_threads + 1
                     tasks := c.inner.tasks ++ [t] }
          workers := c.workers ++ [WorkerPhase.draining]
          submitted := c.submitted ++ [t] } := by
        simp [executeStep, executeLockSection_eq, hlt]
      rw [he]
      refine ⟨hsize, ?_, ?_, ?_, ?_⟩
      · show c.inner.num_running_threads + 1 = (c.workers ++ [WorkerPhase.draining]).length
        simp only [List.length_append, List.length_cons, List.length_nil]
        omega
      · show (c.workers ++ [WorkerPhase.draining]).length ≤ ps
        simp only [List.length_append, List.length_cons, List.length_nil]
        omega
      · show c.submitted ++ [t] = c.claimed ++ (c.inner.tasks ++ [t])
        rw [hfifo, List.append_assoc]
      · intro _
        simp
    · have he : executeStep c t =
        { c with
          inner := { num_running_threads := c.inner.num_running_threads
                     tasks := c.inner.tasks ++ [t] }
          submitted := c.submitted ++ [t] } := by
        simp [executeStep, executeLockSection_eq, hlt]
      rw [he]
      refine ⟨hsize, hcount, hle, ?_, ?_⟩
      · show c.submitted ++ [t] = c.claimed ++ (c.inner.tasks ++ [t])
        rw [hfifo, List.append_assoc]
      · intro _
        show c.workers ≠ []
        have h1 : 1 ≤ c.workers.length := by omega
        exact List.length_pos.mp h1
  | claim c w1 w2 t inner1 hw hpop =>
    obtain ⟨htasks, hn⟩ := workerLockSection_some hpop
    have hle' : (w1 ++ WorkerPhase.draining :: w2).length ≤ ps := hw ▸ hle
    refine ⟨hsize, ?_, ?_, ?_, ?_⟩
    · show inner1.num_running_threads = (w1 ++ WorkerPhase.executing t :: w2).length
      rw [hn, hcount, hw]
      simp
    · show (w1 ++ WorkerPhase.executing t :: w2).length ≤ ps
      simp only [List.length_append, List.length_cons] at hle' ⊢
      exact hle'
    · show c.submitted = (c.claimed ++ [t]) ++ inner1.tasks
      rw [hfifo, htasks]
      simp
    · intro _
      simp
  | exit c w1 w2 inner1 hw hpop =>
    obtain ⟨htasks, htasks1, hn⟩ := workerLockSection_none hpop
    have hlen : c.workers.length = w1.length + 1 + w2.length := by
      rw [hw]
      simp only [List.length_append, List.length_cons]
      omega
    refine ⟨hsize, ?_, ?_, ?_, ?_⟩
    · show inner1.num_running_threads = (w1 ++ w2).length
      simp only [List.length_append]
      omega
    · show (w1 ++ w2).length ≤ ps
      simp only [List.length_append]
      omega
    · show c.submitted = c.claimed ++ inner1.tasks
      rw [htasks1, hfifo, htasks]
    · intro hne
      rw [htasks1] at hne
      exact absurd rfl hne
  | finish c w1 w2 t hw hok =>
    have hle' : (w1 ++ WorkerPhase.draining :: w2).length ≤ ps := by
      rw [hw] at hle
      simpa using hle
    refine ⟨hsize, ?_, hle', hfifo, ?_⟩
    · show c.inner.num_running_threads = (w1 ++ WorkerPhase.draining :: w2).length
      rw [hcount, hw]
      simp
    · intro _
      simp
  | panicked c w1 w2 t hw hp =>
    have hle' : (w1 ++ WorkerPhase.draining :: w2).length ≤ ps := by
      rw [hw] at hle
      simpa using hle
    refine ⟨hsize, ?_, hle', hfifo, ?_⟩
    · show c.inner.num_running_threads = (w1 ++ WorkerPhase.draining :: w2).length
      rw [hcount, hw]
      simp
    · intro _
      simp

/-- The invariant holds in every reachable configuration. -/
theorem poolInv_reachable {ps : Nat} {c : Config} (hps : 1 ≤ ps)
    (h : Reachable ps c) : PoolInv ps c := by
  induction h with
  | init => exact poolInv_init ps
  | step _ hs ih => exact poolInv_step hps ih hs

/-! ### Framing lemmas and the drain argument -/

/-- No step changes the recorded pool size. -/
theorem step_pool_size {l : Label} {c c' : Config} (hs : Step l c c') :
    c'.pool_size = c.pool_size := by
  cases hs <;> rfl

/-- Worker-internal steps leave the submission log unchanged. -/
theorem internal_step_submitted {c c' : Config}
    (hs : Step Label.internal c c') : c'.submitted = c.submitted := by
  cases hs <;> rfl

/-- Specialised pop lemma: when the queue is empty the critical section
reports `none` and decrements the counter. -/
theorem workerLockSection_eq_none {inner : ShrinkPoolInner}
    (h : inner.tasks = []) :
    workerLockSection inner =
      (none, ⟨inner.num_running_threads - 1, []⟩) := by
  obtain ⟨n, ts⟩ := inner
  simp only at h
  subst h
  rfl

/-- Specialised pop lemma: when the queue is non-empty the critical section
pops the head and keeps the counter. -/
theorem workerLockSection_eq_some {inner : ShrinkPoolInner} {t : PoolTask}
    {rest : List PoolTask} (h : inner.tasks = t :: rest) :
    workerLockSection inner =
      (some t, ⟨inner.num_running_threads, rest⟩) := by
  obtain ⟨n, ts⟩ := inner
  simp only at h
  subst h
  rfl

/-- Weight of a worker phase for the termination measure: an `executing`
worker still has to come back to `draining` before it can exit. -/
def phaseWeight : WorkerPhase → Nat
  | WorkerPhase.draining => 1
  | WorkerPhase.executing _ => 2

/-- Termination measure: every worker-internal step strictly decreases it. -/
def configMeasure (c : Config) : Nat :=
  3 * c.inner.tasks.length + (c.workers.map phaseWeight).sum

theorem internal_step_measure {c c' : Config}
    (hs : Step Label.internal c c') : configMeasure c' < configMeasure c := by
  cases hs with
  | claim c w1 w2 t inner1 hw hpop =>
    obtain ⟨htasks, hn⟩ := workerLockSection_some hpop
    show configMeasure
        { c with
          inner := inner1
          workers := w1 ++ WorkerPhase.executing t :: w2
          claimed := c.claimed ++ [t] } < configMeasure c
    simp only [configMeasure, hw, htasks, List.map_append, List.map_cons,
      List.sum_append, List.sum_cons, List.length_cons, phaseWeight]
    omega
  | exit c w1 w2 inner1 hw hpop =>
    obtain ⟨htasks, htasks1, hn⟩ := workerLockSection_none hpop
    show configMeasure { c with inner := inner1, workers := w1 ++ w2 } <
      configMeasure c
    simp only [configMeasure, hw, htasks, htasks1, List.map_append,
      List.map_cons, List.sum_append, List.sum_cons, List.length_nil,
      phaseWeight]
    omega
  | finish c w1 w2 t hw hok =>
    show configMeasure
        { c with
          workers := w1 ++ WorkerPhase.draining :: w2
          resolved := c.resolved ++ [(t, true)] } < configMeasure c
    simp only [configMeasure, hw, List.map_append, List.map_cons,
      List.sum_append, List.sum_cons, phaseWeight]
    omega
  | panicked c w1 w2 t hw hp =>
    show configMeasure
        { c with
          workers := w1 ++ WorkerPhase.draining :: w2
          resolved := c.resolved ++ [(t, false)] } < configMeasure c
    simp only [configMeasure, hw, List.map_append, List.map_cons,
      List.sum_append, List.sum_cons, phaseWeight]
    omega

/-- Progress: while any worker is alive, some worker-internal step is
enabled (a worker thread is never parked waiting for work). -/
theorem internal_progress {c : Config} (hne : c.workers ≠ []) :
    ∃ c', Step Label.internal c c' := by
  cases hworkers : c.workers with
  | nil => exact absurd hworkers hne
  | cons w ws =>
    cases w with
    | draining =>
      cases htasks : c.inner.tasks with
      | nil =>
        exact ⟨_, Step.exit c [] ws ⟨c.inner.num_running_threads - 1, []⟩
          hworkers (workerLockSection_eq_none htasks)⟩
      | cons t rest =>
        exact ⟨_, Step.claim c [] ws t ⟨c.inner.num_running_threads, rest⟩
          hworkers (workerLockSection_eq_some htasks)⟩
    | executing t =>
      cases hp : t.panics with
      | false => exact ⟨_, Step.finish c [] ws t hworkers hp⟩
      | true => exact ⟨_, Step.panicked c [] ws t hworkers hp⟩

/-- With no live workers, no worker-internal step is possible. -/
theorem no_internal_step_of_no_workers {c c' : Config} (hw : c.workers = [])
    (hs : Step Label.internal c c') : False := by
  cases hs with
  | claim c w1 w2 t inner1 hw' hpop => rw [hw] at hw'; simp at hw'
  | exit c w1 w2 inner1 hw' hpop => rw [hw] at hw'; simp at hw'
  | finish c w1 w2 t hw' hok => rw [hw] at hw'; simp at hw'
  | panicked c w1 w2 t hw' hp => rw [hw] at hw'; simp at hw'

/-- Every run of worker-internal steps reaches a configuration with no live
workers (bounded by the measure). -/
theorem drain_aux :
    ∀ (m : Nat) (c : Config), configMeasure c ≤ m →
      ∃ c', Relation.ReflTransGen (Step Label.internal) c c' ∧
        c'.workers = [] := by
  intro m
  induction m with
  | zero =>
    intro c hm
    cases hworkers : c.workers with
    | nil => exact ⟨c, Relation.ReflTransGen.refl, hworkers⟩
    | cons w ws =>
      obtain ⟨c', hs⟩ := internal_progress (c := c) (by rw [hworkers]; simp)
      have hlt := internal_step_measure hs
      exact absurd hlt (by omega)
  | succ m ih =>
    intro c hm
    cases hworkers : c.workers with
    | nil => exact ⟨c, Relation.ReflTransGen.refl, hworkers⟩
    | cons w ws =>
      obtain ⟨c', hs⟩ := internal_progress (c := c) (by rw [hworkers]; simp)
      have hlt := internal_step_measure hs
      obtain ⟨c'', hsteps, hnil⟩ := ih c' (by omega)
      exact ⟨c'', Relation.ReflTransGen.head hs hsteps, hnil⟩

theorem drain (c : Config) :
    ∃ c', Relation.ReflTransGen (Step Label.internal) c c' ∧
      c'.workers = [] :=
  drain_aux (configMeasure c) c (Nat.le_refl _)

/-- The invariant is transported along any run of worker-internal steps. -/
theorem poolInv_steps {ps : Nat} {c c' : Config} (hps : 1 ≤ ps)
    (h : PoolInv ps c)
    (hsteps : Relation.ReflTransGen (Step Label.internal) c c') :
    PoolInv ps c' := by
  induction hsteps with
  | refl => exact h
  | tail _ hstep ih => exact poolInv_step hps ih hstep

theorem internal_steps_submitted {c c' : Config}
    (hsteps : Relation.ReflTransGen (Step Label.internal) c c') :
    c'.submitted = c.submitted := by
  induction hsteps with
  | refl => rfl
  | tail _ hstep ih => rw [internal_step_submitted hstep, ih]

theorem reachable_of_steps {ps : Nat} {c c' : Config} (hr : Reachable ps c)
    (hsteps : Relation.ReflTransGen (Step Label.internal) c c') :
    Reachable ps c' := by
  induction hsteps with
  | refl => exact hr
  | tail _ hstep ih => exact Reachable.step ih hstep

/-- Full drain: from any configuration satisfying the invariant, a finite
run of worker steps empties the pool — no workers, counter 0, empty queue,
and every submitted task has been claimed (in submission order). -/
theorem drain_full {ps : Nat} {c : Config} (hps : 1 ≤ ps)
    (hinv : PoolInv ps c) :
    ∃ c', Relation.ReflTransGen (Step Label.internal) c c' ∧
      c'.workers = [] ∧ c'.inner.num_running_threads = 0 ∧
      c'.inner.tasks = [] ∧ c'.claimed = c.submitted ∧
      c'.submitted = c.submitted := by
  obtain ⟨c', hsteps, hnil⟩ := drain c
  have hinv' := poolInv_steps hps hinv hsteps
  have hsub := internal_steps_submitted hsteps
  have htasks : c'.inner.tasks = [] := by
    by_contra hne
    exact (hinv'.live_of_pending hne) hnil
  have hcl : c'.claimed = c'.submitted := by
    have hf := hinv'.fifo
    rw [htasks, List.append_nil] at hf
    exact hf.symm
  refine ⟨c', hsteps, hnil, ?_, htasks, ?_, hsub⟩
  · rw [hinv'.count_eq, hnil]
    rfl
  · rw [hcl, hsub]

/-! ### The ordering invariant for pools of size 1 (`SyncThread`) -/

theorem eq_nil_of_single {α : Type _} {w1 w2 : List α} {x : α}
    (h : (w1 ++ x :: w2).length ≤ 1) : w1 = [] ∧ w2 = [] := by
  simp only [List.length_append, List.length_cons] at h
  have h1 : w1.length = 0 := by omega
  have h2 : w2.length = 0 := by omega
  exact ⟨List.eq_nil_of_length_eq_zero h1,
    List.eq_nil_of_length_eq_zero h2⟩

theorem executingTasks_append_draining (ws : List WorkerPhase) (b : Bool) :
    executingTasks (ws ++ (if b then [WorkerPhase.draining] else [])) =
      executingTasks ws := by
  cases b <;> simp [executingTasks_append, executingTasks]

/-- For a pool of size 1: the claim log is the resolution log followed by
the tasks currently in flight.  Together with `PoolInv` (at most one live
worker) this says tasks are claimed, run and resolved strictly one at a
time, in claim order. -/
structure SyncInv (c : Config) : Prop where
  base : PoolInv 1 c
  order : c.claimed = c.resolved.map Prod.fst ++ executingTasks c.workers

theorem syncInv_init : SyncInv (initConfig 1) :=
  ⟨poolInv_init 1, rfl⟩

theorem syncInv_step {l : Label} {c c' : Config}
    (h : SyncInv c) (hs : Step l c c') : SyncInv c' := by
  obtain ⟨hbase, horder⟩ := h
  refine ⟨poolInv_step (Nat.le_refl 1) hbase hs, ?_⟩
  cases hs with
  | execute c t =>
    show c.claimed = c.resolved.map Prod.fst ++
      executingTasks (c.workers ++
        (if (executeLockSection c.pool_size c.inner t).2 then
          [WorkerPhase.draining] else []))
    rw [executingTasks_append_draining]
    exact horder
  | claim c w1 w2 t inner1 hw hpop =>
    have hle := hbase.count_le
    rw [hw] at hle
    obtain ⟨h1, h2⟩ := eq_nil_of_single hle
    subst h1
    subst h2
    rw [hw] at horder
    simp only [executingTasks, List.nil_append, List.append_nil] at horder
    show c.claimed ++ [t] = c.resolved.map Prod.fst ++
      executingTasks ([] ++ WorkerPhase.executing t :: [])
    simp only [executingTasks, List.nil_append]
    rw [horder]
  | exit c w1 w2 inner1 hw hpop =>
    show c.claimed = c.resolved.map Prod.fst ++ executingTasks (w1 ++ w2)
    rw [horder, hw]
    simp [executingTasks_append, executingTasks]
  | finish c w1 w2 t hw hok =>
    have hle := hbase.count_le
    rw [hw] at hle
    obtain ⟨h1, h2⟩ := eq_nil_of_single hle
    subst h1
    subst h2
    rw [hw] at horder
    simp only [executingTasks, List.nil_append] at horder
    show c.claimed = (c.resolved ++ [(t, true)]).map Prod.fst ++
      executingTasks ([] ++ WorkerPhase.draining :: [])
    simp only [executingTasks, List.map_append, List.map_cons, List.map_nil,
      List.nil_append, List.append_nil]
    exact horder
  | panicked c w1 w2 t hw hp =>
    have hle := hbase.count_le
    rw [hw] at hle
    obtain ⟨h1, h2⟩ := eq_nil_of_single hle
    subst h1
    subst h2
    rw [hw] at horder
    simp only [executingTasks, List.nil_append] at horder
    show c.claimed = (c.resolved ++ [(t, false)]).map Prod.fst ++
      executingTasks ([] ++ WorkerPhase.draining :: [])
    simp only [executingTasks, List.map_append, List.map_cons, List.map_nil,
      List.nil_append, List.append_nil]
    exact horder

theorem syncInv_reachable {c : Config} (h : Reachable 1 c) : SyncInv c := by
  induction h with
  | init => exact syncInv_init
  | step _ hs ih => exact syncInv_step ih hs

theorem executingTasks_length_le (ws : List WorkerPhase) :
    (executingTasks ws).length ≤ ws.length := by
  induction ws with
  | nil => exact Nat.le_refl 0
  | cons w ws ih =>
    cases w with
    | draining =>
      simp only [executingTasks, List.length_cons]
      omega
    | executing t =>
      simp only [executingTasks, List.length_cons]
      omega

/-! ### Sample data for witnesses -/

/-- A sample task that returns normally. -/
def tNormal : PoolTask := { id := 0, panics := false }

/-- A sample task whose body unwinds. -/
def tPanics : PoolTask := { id := 1, panics := true }

/-- A sample idle inner state. -/
def innerW : ShrinkPoolInner := { num_running_threads := 0, tasks := [] }

/-- A size-1 pool configuration in which the single worker is executing
`tPanics` and the queue is empty: reached by one `execute` call followed by
the worker's claim. -/
def cfgExecuting : Config :=
  { pool_size := 1
    inner := { num_running_threads := 1, tasks := [] }
    workers := [WorkerPhase.executing tPanics]
    submitted := [tPanics]
    claimed := [tPanics]
    resolved := [] }

theorem cfgExecuting_reachable : Reachable 1 cfgExecuting := by
  have h1 : Reachable 1 (executeStep (initConfig 1) tPanics) :=
    Reachable.step Reachable.init (Step.execute _ tPanics)
  have hs : Step Label.internal (executeStep (initConfig 1) tPanics)
      cfgExecuting :=
    Step.claim (executeStep (initConfig 1) tPanics) [] [] tPanics
      { num_running_threads := 1, tasks := [] } rfl rfl
  exact Reachable.step h1 hs

/-! ### The claims -/

/-- C1: on a pool with `pool_size ≥ 1`, `execute` — while holding the lock —
appends the task to the tail of the queue and increments
`num_running_threads` if and only if `num_running_threads < pool_size`;
after releasing the lock it starts exactly one new worker when the increment
happened and none otherwise, and the call is a single always-enabled step
that never waits for any task to complete. -/
theorem execute_appends_and_spawns (ps : Nat) (inner : ShrinkPoolInner)
    (t : PoolTask) (c : Config) (hps : 1 ≤ ps) (hc : c.pool_size = ps) :
    (executeLockSection ps inner t).1.tasks = inner.tasks ++ [t] ∧
    ((executeLockSection ps inner t).2 = true ↔
      inner.num_running_threads < ps) ∧
    (executeLockSection ps inner t).1.num_running_threads =
      (if inner.num_running_threads < ps then inner.num_running_threads + 1
       else inner.num_running_threads) ∧
    (executeStep c t).workers.length =
      c.workers.length +
        (if c.inner.num_running_threads < ps then 1 else 0) ∧
    Step (Label.exec t) c (executeStep c t) := by
  subst hc
  refine ⟨?_, ?_, ?_, ?_, Step.execute c t⟩
  · rw [executeLockSection_eq]
    split <;> rfl
  · rw [executeLockSection_eq]
    split <;> simp [*]
  · rw [executeLockSection_eq]
    split <;> simp [*]
  · by_cases hlt : c.inner.num_running_threads < c.pool_size <;>
      simp [executeStep, executeLockSection_eq, hlt]

theorem execute_appends_and_spawns_witness :
    (executeLockSection 2 innerW tNormal).1.tasks = innerW.tasks ++ [tNormal] ∧
    ((executeLockSection 2 innerW tNormal).2 = true ↔
      innerW.num_running_threads < 2) ∧
    (executeLockSection 2 innerW tNormal).1.num_running_threads =
      (if innerW.num_running_threads < 2 then innerW.num_running_threads + 1
       else innerW.num_running_threads) ∧
    (executeStep (initConfig 2) tNormal).workers.length =
      (initConfig 2).workers.length +
        (if (initConfig 2).inner.num_running_threads < 2 then 1 else 0) ∧
    Step (Label.exec tNormal) (initConfig 2)
      (executeStep (initConfig 2) tNormal) :=
  execute_appends_and_spawns 2 innerW tNormal (initConfig 2) (by decide) rfl

/-- C2: each worker-loop iteration pops the front of the queue under the
lock (a non-empty queue yields its head with the counter untouched; an empty
queue decrements `num_running_threads` and the worker terminates), and
consequently in every reachable configuration the claim log is a prefix of
the submission log: tasks are claimed strictly in FIFO submission order. -/
theorem worker_loop_pops_fifo (n : Nat) (f : PoolTask) (rest : List PoolTask)
    (ps : Nat) (c : Config) (hps : 1 ≤ ps) (hr : Reachable ps c) :
    workerLockSection ⟨n, f :: rest⟩ = (some f, ⟨n, rest⟩) ∧
    workerLockSection ⟨n, []⟩ = (none, ⟨n - 1, []⟩) ∧
    ∃ s, c.claimed ++ s = c.submitted := by
  refine ⟨workerLockSection_cons n f rest, workerLockSection_nil n, ?_⟩
  exact ⟨c.inner.tasks, ((poolInv_reachable hps hr).fifo).symm⟩

theorem worker_loop_pops_fifo_witness :
    workerLockSection ⟨3, tNormal :: [tPanics]⟩ = (some tNormal, ⟨3, [tPanics]⟩) ∧
    workerLockSection ⟨3, []⟩ = (none, ⟨3 - 1, []⟩) ∧
    ∃ s, cfgExecuting.claimed ++ s = cfgExecuting.submitted :=
  worker_loop_pops_fifo 3 tNormal [tPanics] 1 cfgExecuting (by decide)
    cfgExecuting_reachable

/-- C3: in every reachable configuration of a pool with `pool_size ≥ 1`,
`0 ≤ num_running_threads ≤ pool_size` (the lower bound is inherent to the
`Nat` counter) and the number of simultaneously live workers never exceeds
`pool_size`; the invariant is preserved by `execute` calls, worker-loop
steps and respawns because it holds along every `Reachable` derivation. -/
theorem counter_bounded (ps : Nat) (c : Config) (hps : 1 ≤ ps)
    (hr : Reachable ps c) :
    c.inner.num_running_threads ≤ ps ∧ c.workers.length ≤ ps := by
  have h := poolInv_reachable hps hr
  exact ⟨by rw [h.count_eq]; exact h.count_le, h.count_le⟩

theorem counter_bounded_witness :
    cfgExecuting.inner.num_running_threads ≤ 1 ∧
    cfgExecuting.workers.length ≤ 1 :=
  counter_bounded 1 cfgExecuting (by decide) cfgExecuting_reachable

/-- C4: the `PanicCatcher` spawns exactly one replacement worker when it is
still armed (`is_working = true`, the task unwound) and none when disarmed
(normal return); a task that unwinds yields a step replacing the dead worker
with exactly one fresh `draining` worker sharing the same pool state,
leaving the inner state — in particular `num_running_threads` — untouched;
a task that returns normally yields a step with no new worker (the same
thread loops) and the inner state untouched as well. -/
theorem panic_catcher_spec (c : Config) (w1 w2 : List WorkerPhase)
    (t : PoolTask) (hw : c.workers = w1 ++ WorkerPhase.executing t :: w2) :
    panicCatcherDropSpawns true = 1 ∧
    panicCatcherDropSpawns false = 0 ∧
    (t.panics = true →
      Step Label.internal c
        { c with
          workers := w1 ++ WorkerPhase.draining :: w2
          resolved := c.resolved ++ [(t, false)] } ∧
      ({ c with
         workers := w1 ++ WorkerPhase.draining :: w2
         resolved := c.resolved ++ [(t, false)] } : Config).inner = c.inner ∧
      (w1 ++ WorkerPhase.draining :: w2).length = c.workers.length) ∧
    (t.panics = false →
      Step Label.internal c
        { c with
          workers := w1 ++ WorkerPhase.draining :: w2
          resolved := c.resolved ++ [(t, true)] } ∧
      ({ c with
         workers := w1 ++ WorkerPhase.draining :: w2
         resolved := c.resolved ++ [(t, true)] } : Config).inner = c.inner ∧
      (w1 ++ WorkerPhase.draining :: w2).length = c.workers.length) := by
  refine ⟨rfl, rfl,
    fun hp => ⟨Step.panicked c w1 w2 t hw hp, rfl, ?_⟩,
    fun hok => ⟨Step.finish c w1 w2 t hw hok, rfl, ?_⟩⟩ <;>
    · rw [hw]
      simp

theorem panic_catcher_spec_witness :
    panicCatcherDropSpawns true = 1 ∧
    panicCatcherDropSpawns false = 0 ∧
    (tPanics.panics = true →
      Step Label.internal cfgExecuting
        { cfgExecuting with
          workers := [] ++ WorkerPhase.draining :: []
          resolved := cfgExecuting.resolved ++ [(tPanics, false)] } ∧
      ({ cfgExecuting with
         workers := [] ++ WorkerPhase.draining :: []
         resolved := cfgExecuting.resolved ++ [(tPanics, false)] } :
           Config).inner = cfgExecuting.inner ∧
      (([] : List WorkerPhase) ++ WorkerPhase.draining :: []).length =
        cfgExecuting.workers.length) ∧
    (tPanics.panics = false →
      Step Label.internal cfgExecuting
        { cfgExecuting with
          workers := [] ++ WorkerPhase.draining :: []
          resolved := cfgExecuting.resolved ++ [(tPanics, true)] } ∧
      ({ cfgExecuting with
         workers := [] ++ WorkerPhase.draining :: []
         resolved := cfgExecuting.resolved ++ [(tPanics, true)] } :
           Config).inner = cfgExecuting.inner ∧
      (([] : List WorkerPhase) ++ WorkerPhase.draining :: []).length =
        cfgExecuting.workers.length) :=
  panic_catcher_spec cfgExecuting [] [] tPanics rfl

/-- C5: in every reachable configuration of a pool with `pool_size ≥ 1`,
the claim log is a prefix of the submission log — no queue entry is ever
claimed twice, so each task is invoked at most as often as it was submitted
— and a finite run of worker steps from here ends with every submitted task
claimed exactly once: the claim log becomes the submission log itself. -/
theorem tasks_run_exactly_once (ps : Nat) (c : Config) (hps : 1 ≤ ps)
    (hr : Reachable ps c) :
    (∃ s, c.claimed ++ s = c.submitted) ∧
    (∀ t : PoolTask, c.claimed.count t ≤ c.submitted.count t) ∧
    ∃ c', Relation.ReflTransGen (Step Label.internal) c c' ∧
      c'.submitted = c.submitted ∧ c'.claimed = c.submitted := by
  have h := poolInv_reachable hps hr
  refine ⟨⟨c.inner.tasks, h.fifo.symm⟩, ?_, ?_⟩
  · intro t
    rw [h.fifo, List.count_append]
    omega
  · obtain ⟨c', hsteps, _, _, _, hcl, hsub⟩ := drain_full hps h
    exact ⟨c', hsteps, hsub, hcl⟩

theorem tasks_run_exactly_once_witness :
    (∃ s, cfgExecuting.claimed ++ s = cfgExecuting.submitted) ∧
    (∀ t : PoolTask,
      cfgExecuting.claimed.count t ≤ cfgExecuting.submitted.count t) ∧
    ∃ c', Relation.ReflTransGen (Step Label.internal) cfgExecuting c' ∧
      c'.submitted = cfgExecuting.submitted ∧
      c'.claimed = cfgExecuting.submitted :=
  tasks_run_exactly_once 1 cfgExecuting (by decide) cfgExecuting_reachable

/-- C6: from any reachable configuration (including ones reached through a
panic-triggered respawn), a finite run of worker steps leads to a drained
configuration: every live worker has observed the empty queue, decremented
`num_running_threads` and exited, so no workers remain, the counter is 0 and
the queue is empty.  The pool stays usable afterwards: from the drained
configuration any `execute` call decides to spawn again and its step is
enabled. -/
theorem shrink_to_zero (ps : Nat) (c : Config) (hps : 1 ≤ ps)
    (hr : Reachable ps c) :
    ∃ c', Relation.ReflTransGen (Step Label.internal) c c' ∧
      c'.workers = [] ∧ c'.inner.num_running_threads = 0 ∧
      c'.inner.tasks = [] ∧
      (∀ t : PoolTask, (executeLockSection ps c'.inner t).2 = true) ∧
      (∀ t : PoolTask, Step (Label.exec t) c' (executeStep c' t)) := by
  have h := poolInv_reachable hps hr
  obtain ⟨c', hsteps, hnil, hn0, htasks, _, _⟩ := drain_full hps h
  refine ⟨c', hsteps, hnil, hn0, htasks, ?_, fun t => Step.execute c' t⟩
  intro t
  rw [executeLockSection_eq, hn0]
  have hpos : 0 < ps := hps
  simp [hpos]

theorem shrink_to_zero_witness :
    ∃ c', Relation.ReflTransGen (Step Label.internal) cfgExecuting c' ∧
      c'.workers = [] ∧ c'.inner.num_running_threads = 0 ∧
      c'.inner.tasks = [] ∧
      (∀ t : PoolTask, (executeLockSection 1 c'.inner t).2 = true) ∧
      (∀ t : PoolTask, Step (Label.exec t) c' (executeStep c' t)) :=
  shrink_to_zero 1 cfgExecuting (by decide) cfgExecuting_reachable

/-- C7: `SyncThread::new` constructs exactly a `ShrinkPool` of size 1 (same
idle initial state) and `SyncThread::execute` forwards its task to
`ShrinkPool::execute` unchanged, so the façade's behaviour is that of a
size-1 pool; in addition, in every reachable size-1 configuration at most
one task is in flight and the resolution log is a prefix of the submission
log — tasks complete strictly one at a time in submission order. -/
theorem sync_thread_facade (s : SyncThread) (f : PoolTask) (c : Config)
    (hr : Reachable 1 c) :
    (∃ st, SyncThread.new = some st ∧ st.pool.pool_size = 1 ∧
      st.pool.inner.num_running_threads = 0 ∧ st.pool.inner.tasks = []) ∧
    (SyncThread.new).map SyncThread.pool = ShrinkPool.new 1 ∧
    (s.execute f).1.pool = (s.pool.execute f).1 ∧
    (s.execute f).2 = (s.pool.execute f).2 ∧
    (executingTasks c.workers).length ≤ 1 ∧
    ∃ r, c.resolved.map Prod.fst ++ r = c.submitted := by
  have hsync := syncInv_reachable hr
  have hbase := hsync.base
  refine ⟨⟨⟨⟨1, ⟨0, []⟩⟩⟩, rfl, rfl, rfl, rfl⟩, rfl, rfl, rfl, ?_, ?_⟩
  · exact le_trans (executingTasks_length_le c.workers) hbase.count_le
  · refine ⟨executingTasks c.workers ++ c.inner.tasks, ?_⟩
    rw [← List.append_assoc, ← hsync.order, ← hbase.fifo]

/-- A sample façade handle, as built by `SyncThread::new`. -/
def stW : SyncThread := { pool := { pool_size := 1, inner := innerW } }

theorem sync_thread_facade_witness :
    (∃ st, SyncThread.new = some st ∧ st.pool.pool_size = 1 ∧
      st.pool.inner.num_running_threads = 0 ∧ st.pool.inner.tasks = []) ∧
    (SyncThread.new).map SyncThread.pool = ShrinkPool.new 1 ∧
    (stW.execute tNormal).1.pool = (stW.pool.execute tNormal).1 ∧
    (stW.execute tNormal).2 = (stW.pool.execute tNormal).2 ∧
    (executingTasks cfgExecuting.workers).length ≤ 1 ∧
    ∃ r, cfgExecuting.resolved.map Prod.fst ++ r = cfgExecuting.submitted :=
  sync_thread_facade stW tNormal cfgExecuting cfgExecuting_reachable

/-- C8: `ShrinkPool::new(0)` fails fatally — the source panics, modelled as
`none`, and no pool is created — while for any `pool_size ≥ 1` it returns a
handle whose state has `num_running_threads = 0` and an empty task queue:
an idle pool with zero live workers. -/
theorem new_pool_spec (ps : Nat) (hps : 1 ≤ ps) :
    ShrinkPool.new 0 = none ∧
    ∃ p, ShrinkPool.new ps = some p ∧ p.pool_size = ps ∧
      p.inner.num_running_threads = 0 ∧ p.inner.tasks = [] := by
  have hne : ps ≠ 0 := by omega
  refine ⟨rfl, ⟨⟨ps, ⟨0, []⟩⟩, ?_, rfl, rfl, rfl⟩⟩
  simp [ShrinkPool.new, hne]

theorem new_pool_spec_witness :
    ShrinkPool.new 0 = none ∧
    ∃ p, ShrinkPool.new 4 = some p ∧ p.pool_size = 4 ∧
      p.inner.num_running_threads = 0 ∧ p.inner.tasks = [] :=
  new_pool_spec 4 (by decide)

/-- C9: in every reachable quiescent configuration, `num_running_threads`
equals the number of live workers — exactly the workers that have not yet
observed an empty queue, a panicked worker's Failure-Guard replacement
occupying the same accounted slot (the `panicked` step swaps the dead worker
for its replacement in place, leaving the worker count and the counter
unchanged). -/
theorem counter_counts_live_workers (ps : Nat) (c : Config) (hps : 1 ≤ ps)
    (hr : Reachable ps c) :
    c.inner.num_running_threads = c.workers.length :=
  (poolInv_reachable hps hr).count_eq

theorem counter_counts_live_workers_witness :
    cfgExecuting.inner.num_running_threads = cfgExecuting.workers.length :=
  counter_counts_live_workers 1 cfgExecuting (by decide) cfgExecuting_reachable

/-- C10: the Failure-Guard respawn is unconditional: it fires even when the
queue is already empty.  From a reachable configuration where an executing
task unwinds with an empty queue, the `panicked` step still installs a
replacement worker (worker count unchanged, no task claimed), and that
replacement immediately observes the empty queue, decrements
`num_running_threads` and exits — the counter invariant is restored and the
only effect was one short-lived extra worker that ran no task. -/
theorem respawn_with_empty_queue (ps : Nat) (c : Config)
    (w1 w2 : List WorkerPhase) (t : PoolTask)
    (hps : 1 ≤ ps) (hr : Reachable ps c)
    (hw : c.workers = w1 ++ WorkerPhase.executing t :: w2)
    (hp : t.panics = true) (he : c.inner.tasks = []) :
    Step Label.internal c
      { c with
        workers := w1 ++ WorkerPhase.draining :: w2
        resolved := c.resolved ++ [(t, false)] } ∧
    (w1 ++ WorkerPhase.draining :: w2).length = c.workers.length ∧
    ∃ c2, Step Label.internal
        { c with
          workers := w1 ++ WorkerPhase.draining :: w2
          resolved := c.resolved ++ [(t, false)] } c2 ∧
      Reachable ps c2 ∧
      c2.workers = w1 ++ w2 ∧
      c2.inner.num_running_threads = c.inner.num_running_threads - 1 ∧
      c2.inner.tasks = [] ∧
      c2.claimed = c.claimed ∧
      c2.inner.num_running_threads = c2.workers.length := by
  have hstep1 : Step Label.internal c
      { c with
        workers := w1 ++ WorkerPhase.draining :: w2
        resolved := c.resolved ++ [(t, false)] } :=
    Step.panicked c w1 w2 t hw hp
  have hstep2 : Step Label.internal
      { c with
        workers := w1 ++ WorkerPhase.draining :: w2
        resolved := c.resolved ++ [(t, false)] }
      { c with
        inner := ⟨c.inner.num_running_threads - 1, []⟩
        workers := w1 ++ w2
        resolved := c.resolved ++ [(t, false)] } :=
    Step.exit _ w1 w2 ⟨c.inner.num_running_threads - 1, []⟩ rfl
      (workerLockSection_eq_none he)
  have hr2 : Reachable ps
      { c with
        inner := ⟨c.inner.num_running_threads - 1, []⟩
        workers := w1 ++ w2
        resolved := c.resolved ++ [(t, false)] } :=
    Reachable.step (Reachable.step hr hstep1) hstep2
  refine ⟨hstep1, ?_, ⟨_, hstep2, hr2, rfl, rfl, rfl, rfl,
    (poolInv_reachable hps hr2).count_eq⟩⟩
  rw [hw]
  simp

theorem respawn_with_empty_queue_witness :
    Step Label.internal cfgExecuting
      { cfgExecuting with
        workers := [] ++ WorkerPhase.draining :: []
        resolved := cfgExecuting.resolved ++ [(tPanics, false)] } ∧
    (([] : List WorkerPhase) ++ WorkerPhase.draining :: []).length =
      cfgExecuting.workers.length ∧
    ∃ c2, Step Label.internal
        { cfgExecuting with
          workers := [] ++ WorkerPhase.draining :: []
          resolved := cfgExecuting.resolved ++ [(tPanics, false)] } c2 ∧
      Reachable 1 c2 ∧
      c2.workers = [] ++ [] ∧
      c2.inner.num_running_threads =
        cfgExecuting.inner.num_running_threads - 1 ∧
      c2.inner.tasks = [] ∧
      c2.claimed = cfgExecuting.claimed ∧
      c2.inner.num_running_threads = c2.workers.length :=
  respawn_with_empty_queue 1 cfgExecuting [] [] tPanics (by decide)
    cfgExecuting_reachable rfl rfl rfl
